import Mathlib

/-!
# Verification of the yar layout engine (src/visualization.js)

A shallow embedding of the layout pipeline of `src/visualization.js`.
JavaScript strings that only ever get compared or tested for truthiness are
modelled as `Option String` (`none` stands for a missing / falsy value, i.e.
`null`, `undefined` or `""`); strings whose character count matters (node
names fed to `wrapText`) are modelled as `List Char`.  JavaScript numbers
are modelled as `ℚ`: every arithmetic operation the pipeline performs
(+, -, *, /, min, max, negation) is exact on the inputs considered.
-/

namespace Yar

/-! ## Hierarchy normalizer (`transformData` / `createHierarchy`, lines 33-81)

`RawItem` models the loosely-typed input record: each field is `none` when
absent or falsy.  `items` is `none` when the `items` key is absent or not an
array.  Mutual inductives are used instead of nested `List` recursion so that
all functions are structural and kernel-evaluable. -/

mutual
inductive RawItem : Type where
  | mk (name status link links category side visibility : Option String)
       (items : Option RawList) : RawItem
inductive RawList : Type where
  | nil : RawList
  | cons (r : RawItem) (rs : RawList) : RawList
end

/-- The root datum handed to `transformData`: a single object or an array. -/
inductive RawRoot : Type where
  | obj (r : RawItem) : RawRoot
  | arr (l : RawList) : RawRoot

/- Canonical normalized node.  In the source an empty `children` array is
`delete`d from the object; both "absent" and "empty" are modelled as
`JNodeList.nil` (d3 treats them identically: the node is a leaf). -/
mutual
inductive JNode : Type where
  | mk (name : String) (status link category side visibility : Option String)
       (children : JNodeList) : JNode
inductive JNodeList : Type where
  | nil : JNodeList
  | cons (n : JNode) (ns : JNodeList) : JNodeList
end

def JNode.link : JNode → Option String
  | .mk _ _ link _ _ _ _ => link

def JNode.name : JNode → String
  | .mk name _ _ _ _ _ _ => name

def JNode.children : JNode → JNodeList
  | .mk _ _ _ _ _ _ children => children

def RawList.length : RawList → Nat
  | .nil => 0
  | .cons _ rs => 1 + rs.length

/- `createHierarchy` (lines 34-62): skip items without a (truthy) name,
`link: item.links || item.link || null`, recurse into `items`, dropped
children are filtered out.  The `console.warn` diagnostic has no observable
effect beyond the dropped subtree and is not modelled. -/
mutual
def createHierarchy : RawItem → Option JNode
  | .mk name status link links category side visibility items =>
    match name with
    | none => none
    | some nm =>
      let children : JNodeList :=
        match items with
        | none => .nil
        | some l => hierarchyList l
      some (.mk nm status (links.orElse fun _ => link) category side visibility children)
def hierarchyList : RawList → JNodeList
  | .nil => .nil
  | .cons r rs =>
    match createHierarchy r with
    | none => hierarchyList rs
    | some n => .cons n (hierarchyList rs)
end

/-- The entry point `transformData` (lines 64-81): an array root of length 1 recurses into
its element; any other array root synthesizes a root named "Root"; a single
object is normalized directly.  A `none` result is the EmptyTree failure:
the caller has nothing to lay out (`d3.hierarchy(null)` throws). -/
def transformData : RawRoot → Option JNode
  | .obj r => createHierarchy r
  | .arr (.cons r .nil) => createHierarchy r
  | .arr l => some (.mk "Root" none none none none none (hierarchyList l))

/-! ## Attribute inheritance resolver (lines 220-261)

The source iterates over `root.descendants()` and, for each node lacking an
explicit `category` (resp. `side`, `visibility`), walks the parent chain
upward to the nearest ancestor whose *data* field is explicit.  Only data
fields are read and only `inherited*` fields are written, so the iteration
order is irrelevant; the embedding runs the same per-node upward walk
recursively, carrying the parent chain (nearest ancestor first) as a list of
the ancestors' data fields. -/

/-- The three inheritable data attributes of a node (`none` = falsy). -/
structure Attrs : Type where
  category : Option String
  side : Option String
  visibility : Option String
deriving DecidableEq, Repr

mutual
inductive ResTree : Type where
  | mk (data inherited : Attrs) (children : ResForest) : ResTree
inductive ResForest : Type where
  | nil : ResForest
  | cons (t : ResTree) (ts : ResForest) : ResForest
end

def ResTree.data : ResTree → Attrs
  | .mk d _ _ => d

def ResTree.inherited : ResTree → Attrs
  | .mk _ i _ => i

def ResTree.children : ResTree → ResForest
  | .mk _ _ cs => cs

/-- The upward walk `let ancestor = d.parent; while (ancestor && !ancestor.data.x)
ancestor = ancestor.parent; if (ancestor && ancestor.data.x) ...`: the first explicit
value on the (nearest-first) ancestor chain, else `none`. -/
def firstSome : List (Option String) → Option String
  | [] => none
  | some v :: _ => some v
  | none :: rest => firstSome rest

/-- One field of the per-node resolution: own explicit value if truthy, else
the nearest ancestor's explicit value, else undefined. -/
def resolveField (own : Option String) (ancestors : List (Option String)) : Option String :=
  match own with
  | some v => some v
  | none => firstSome ancestors

/- The resolver pass.  `ancCat`/`ancSide`/`ancVis` are the data fields of the
ancestors of the current node, nearest first (the parent chain). -/
mutual
def resolveNode (ancCat ancSide ancVis : List (Option String)) : ResTree → ResTree
  | .mk d _ cs =>
    .mk d
      ⟨resolveField d.category ancCat, resolveField d.side ancSide,
        resolveField d.visibility ancVis⟩
      (resolveForest (d.category :: ancCat) (d.side :: ancSide) (d.visibility :: ancVis) cs)
def resolveForest (ancCat ancSide ancVis : List (Option String)) : ResForest → ResForest
  | .nil => .nil
  | .cons t ts =>
    .cons (resolveNode ancCat ancSide ancVis t) (resolveForest ancCat ancSide ancVis ts)
end

/-- Running the resolver on the whole tree (the root has no ancestors). -/
def resolve (t : ResTree) : ResTree := resolveNode [] [] [] t

/-- Child at index `i` of a forest. -/
def forestGet : ResForest → Nat → Option ResTree
  | .nil, _ => none
  | .cons t _, 0 => some t
  | .cons _ ts, n + 1 => forestGet ts n

/-- Node at a child-index path (root = `[]`). -/
def getNode : List Nat → ResTree → Option ResTree
  | [], t => some t
  | i :: p, t => (forestGet t.children i).bind (getNode p)

/-- Data fields of the proper ancestors of the node at path `p`, nearest
ancestor first (an invalid path yields `[]`). -/
def ancestorAttrs : List Nat → ResTree → List Attrs
  | [], _ => []
  | i :: p, t =>
    match forestGet t.children i with
    | none => []
    | some c => ancestorAttrs p c ++ [t.data]

/-! ## Side inversion and leaf clustering (lines 263-340)

These passes run after `treeLayout(root)` and the x/y axis swap.  The d3
tree-layout positions are external input (d3 is not part of this
repository), so an `LTree` carries the post-swap coordinates: `x` is the
depth-axis coordinate (the pre-negation distance from the root stored as
`originalX` in line 282), `y` the cross-axis coordinate.  `effSide` is the
value of `getNodeSide` (lines 264-268): the resolved effective side,
defaulting to right.

The clustering loop (lines 296-340) iterates over all descendants and, at a
parent whose children are all leaves, rewrites the children's coordinates
from the parent's own coordinates.  A node with children is never itself a
leaf, so no node that the loop reads from is ever rewritten; the mutation
order is irrelevant and the pass is embedded as structural recursion. -/

inductive Side : Type where
  | left : Side
  | right : Side
deriving DecidableEq, Repr

/-- Direction factor `side === "left" ? -1 : 1` (line 304). -/
def dirOf : Side → ℚ
  | .left => -1
  | .right => 1

mutual
inductive LTree : Type where
  | mk (x y : ℚ) (effSide : Side) (children : LForest) : LTree
inductive LForest : Type where
  | nil : LForest
  | cons (t : LTree) (ts : LForest) : LForest
end

def LTree.x : LTree → ℚ
  | .mk x _ _ _ => x

def LTree.y : LTree → ℚ
  | .mk _ y _ _ => y

def LTree.effSide : LTree → Side
  | .mk _ _ s _ => s

def LTree.children : LTree → LForest
  | .mk _ _ _ cs => cs

def LTree.isLeaf : LTree → Bool
  | .mk _ _ _ .nil => true
  | _ => false

def LForest.length : LForest → Nat
  | .nil => 0
  | .cons _ ts => ts.length + 1

def LForest.allLeaves : LForest → Bool
  | .nil => true
  | .cons t ts => t.isLeaf && ts.allLeaves

/- Side inversion (lines 281-293): each node's `originalX` is its pre-pass
`x`, captured once; left-side nodes get `x = -originalX`. -/
mutual
def invertNode : LTree → LTree
  | .mk x y s cs => .mk (if s = .left then -x else x) y s (invertForest cs)
def invertForest : LForest → LForest
  | .nil => .nil
  | .cons t ts => .cons (invertNode t) (invertForest ts)
end

/-- Grid arm of the clustering pass (lines 309-329): even index → left
column, odd → right column, `row = ⌊index / 2⌋`. -/
def gridForest (startY rowSpacing baseX columnSpacing : ℚ) (index : Nat) :
    LForest → LForest
  | .nil => .nil
  | .cons (.mk _ _ s ccs) ts =>
    .cons
      (.mk (baseX + (if index % 2 = 0 then -(columnSpacing / 2) else columnSpacing / 2))
        (startY + (index / 2 : Nat) * rowSpacing) s ccs)
      (gridForest startY rowSpacing baseX columnSpacing (index + 1) ts)

/-- Single-column arm (lines 331-337): only `x` is rewritten. -/
def singleColForest (newX : ℚ) : LForest → LForest
  | .nil => .nil
  | .cons (.mk _ cy s ccs) ts => .cons (.mk newX cy s ccs) (singleColForest newX ts)

/- The leaf-clustering pass (lines 296-340).  `H` is
`settings.nodeSpacingHorizontal`, `V` is `settings.nodeSpacingVertical`. -/
mutual
def clusterNode (H V : ℚ) : LTree → LTree
  | .mk x y s cs =>
    if 0 < cs.length ∧ cs.allLeaves = true then
      let numChildren := cs.length
      let direction := dirOf s
      let leafHorizontalOffset := H * (1 / 2)
      if 2 < numChildren then
        let columnSpacing := H * (3 / 10)
        let rowSpacing := V * (6 / 5)
        let totalRows := (numChildren + 1) / 2
        let totalHeight := ((totalRows : ℚ) - 1) * rowSpacing
        let startY := y - totalHeight / 2
        .mk x y s
          (gridForest startY rowSpacing (x + leafHorizontalOffset * direction)
            columnSpacing 0 cs)
      else
        .mk x y s (singleColForest (x + leafHorizontalOffset * direction) cs)
    else
      .mk x y s (clusterForest H V cs)
def clusterForest (H V : ℚ) : LForest → LForest
  | .nil => .nil
  | .cons t ts => .cons (clusterNode H V t) (clusterForest H V ts)
end

/-- The depth-axis portion of the post-layout pipeline: side inversion
followed by leaf clustering (category aggregation and viewport translation
only ever change `y` and add a common x offset afterwards). -/
def xPipeline (H V : ℚ) (t : LTree) : LTree := clusterNode H V (invertNode t)

def lforestGet : LForest → Nat → Option LTree
  | .nil, _ => none
  | .cons t _, 0 => some t
  | .cons _ ts, n + 1 => lforestGet ts n

/-- Node at a child-index path of a layout tree. -/
def lgetNode : List Nat → LTree → Option LTree
  | [], t => some t
  | i :: p, t => (lforestGet t.children i).bind (lgetNode p)

/-- Replace the child at index `i` by `f` applied to it. -/
def lforestModify (i : Nat) (f : LTree → LTree) : LForest → LForest
  | .nil => .nil
  | .cons t ts =>
    match i with
    | 0 => .cons (f t) ts
    | n + 1 => .cons t (lforestModify n f ts)

/-- Overwrite the effective side of the node at path `p`, leaving every
other input unchanged. -/
def setSideAt : List Nat → Side → LTree → LTree
  | [], s, .mk x y _ cs => .mk x y s cs
  | i :: p, s, .mk x y s0 cs => .mk x y s0 (lforestModify i (setSideAt p s) cs)

/-! ## Text wrapping and node sizing (lines 9-14 and 136-188)

`wrapText` splits on runs of whitespace (`text.split(/\s+/)`) and greedily
packs words into lines, approximating the width of a line as
`line.length * TEXT_FONT_SIZE / 2`.  Node names are modelled as `List Char`
so that `length` is the character count.

The sizing pass (lines 156-188) iterates over `root.descendants()`; each
node's size depends only on its own depth, leaf flag and name, so the pass
is embedded over the flat descendants list. -/

def TEXT_FONT_SIZE : ℚ := 60
def TEXT_LINE_HEIGHT : ℚ := 70
def NODE_SIZE : ℚ := 200
def LEAF_HEIGHT : ℚ := 100
def LEAF_WIDTH : ℚ := 400

/-- The split `text.split(/\s+/)` on a character list: runs of spaces separate tokens;
a leading (or trailing) run contributes one empty token, like the JS regex
split.  `cur` is the reversed current token, `inSep` records whether the
previous character was part of a just-split separator run. -/
def splitWsGo (inSep : Bool) (cur : List Char) : List Char → List (List Char)
  | [] => [cur.reverse]
  | c :: rest =>
    if c = ' ' then
      if inSep then splitWsGo true cur rest
      else cur.reverse :: splitWsGo true [] rest
    else splitWsGo false (c :: cur) rest

/-- The greedy line-filling loop of `wrapText` (lines 141-152). -/
def wrapGo (maxWidth : ℚ) (currentLine : List Char) : List (List Char) → List (List Char)
  | [] => [currentLine]
  | w :: ws =>
    let testLine := currentLine ++ ' ' :: w
    let testLength := (testLine.length : ℚ) * TEXT_FONT_SIZE / 2
    if testLength > maxWidth ∧ 0 < currentLine.length then
      currentLine :: wrapGo maxWidth w ws
    else wrapGo maxWidth testLine ws

/-- Line wrapping `wrapText` (lines 136-154).  `splitWsGo` never returns `[]`, so the
first branch is unreachable. -/
def wrapText (text : List Char) (maxWidth : ℚ) : List (List Char) :=
  match splitWsGo false [] text with
  | [] => []
  | w :: ws => wrapGo maxWidth w ws

/-- Depth decay `Math.pow(0.85, depth)` (line 162). -/
def depthScaleOf (depth : Nat) : ℚ := (85 / 100) ^ depth

/-- The two configuration fields the sizing pass reads. -/
structure SizeSettings : Type where
  nodeScale : ℚ
  textScale : ℚ

/-- A descendant record as the sizing pass sees it: its depth, whether
`!d.children` (leaf), and its name.  `isLeaf`/depth come from
`d3.hierarchy`, which is external input to this pass. -/
structure RawLayoutNode : Type where
  depth : Nat
  isLeaf : Bool
  name : List Char
deriving DecidableEq, Repr

/-- Width assigned by the sizing pass (lines 167 and 184-186).  Note
`LEAF_WIDTH = 2 * NODE_SIZE`, so leaves and circles get the same width. -/
def sizedWidth (s : SizeSettings) (n : RawLayoutNode) : ℚ :=
  if n.isLeaf then LEAF_WIDTH * s.nodeScale * depthScaleOf n.depth
  else NODE_SIZE * s.nodeScale * depthScaleOf n.depth * 2

/-- Height assigned by the sizing pass (lines 166-187). -/
def sizedHeight (s : SizeSettings) (n : RawLayoutNode) : ℚ :=
  let depthScale := depthScaleOf n.depth
  if n.isLeaf then
    let nodeWidth := LEAF_WIDTH * s.nodeScale * depthScale
    let lineHeight := TEXT_LINE_HEIGHT * s.textScale * depthScale
    let padding := 20 * depthScale
    let maxTextWidth := nodeWidth - padding * 2
    let numLines := (wrapText n.name maxTextWidth).length
    let minHeight := LEAF_HEIGHT * s.nodeScale * depthScale
    max minHeight ((numLines : ℚ) * lineHeight + padding * 2)
  else NODE_SIZE * s.nodeScale * depthScale * 2

/-- The sizing pass over the descendants list: each record is decorated
with its `nodeWidth` and `nodeHeight`. -/
def sizePass (s : SizeSettings) (ns : List RawLayoutNode) :
    List (RawLayoutNode × ℚ × ℚ) :=
  ns.map fun n => (n, sizedWidth s n, sizedHeight s n)

/-! ## Category aggregation (lines 342-472)

A category group holds the member layout nodes (center coordinates and
footprint sizes).  A group is nonempty by construction: a key exists in
`categoryGroups` only once a node has been pushed, so the group is modelled
as a first member plus the rest. -/

/-- The per-node data the aggregator reads and writes. -/
structure CatNode : Type where
  x : ℚ
  y : ℚ
  nodeWidth : ℚ
  nodeHeight : ℚ
deriving DecidableEq, Repr

/-- A `CategoryBounds` rectangle. -/
structure Bounds : Type where
  x : ℚ
  y : ℚ
  width : ℚ
  height : ℚ
deriving DecidableEq, Repr

/-- One category's member nodes (nonempty by construction). -/
structure CatGroup : Type where
  first : CatNode
  rest : List CatNode
deriving DecidableEq, Repr

/-- Bounding rectangles: `calculateCategoryBounds` (lines 356-378).  The source folds from
`±Infinity`; over a nonempty member list that equals folding from the first
member's extents. -/
def calculateCategoryBounds (g : CatGroup) (padding : ℚ) : Bounds :=
  let minX := g.rest.foldl (fun m d => min m (d.x - d.nodeWidth / 2))
    (g.first.x - g.first.nodeWidth / 2)
  let maxX := g.rest.foldl (fun m d => max m (d.x + d.nodeWidth / 2))
    (g.first.x + g.first.nodeWidth / 2)
  let minY := g.rest.foldl (fun m d => min m (d.y - d.nodeHeight / 2))
    (g.first.y - g.first.nodeHeight / 2)
  let maxY := g.rest.foldl (fun m d => max m (d.y + d.nodeHeight / 2))
    (g.first.y + g.first.nodeHeight / 2)
  ⟨minX - padding, minY - padding, maxX - minX + 2 * padding, maxY - minY + 2 * padding⟩

def categoryPadding : ℚ := 150
def categorySpacing : ℚ := 300

def shiftNodeY (off : ℚ) (n : CatNode) : CatNode := { n with y := n.y + off }

def shiftGroupY (off : ℚ) (g : CatGroup) : CatGroup :=
  ⟨shiftNodeY off g.first, g.rest.map (shiftNodeY off)⟩

/-- Mean cross-axis coordinate of a group (lines 387-389). -/
def categoryAvgY (g : CatGroup) : ℚ :=
  (g.first.y + (g.rest.map CatNode.y).sum) / (g.rest.length + 1)

/-- Stable ascending insertion by `avgY`, modelling
`sort((a, b) => a.avgY - b.avgY)` (lines 405-406). -/
def insertByAvgY (g : CatGroup) : List CatGroup → List CatGroup
  | [] => [g]
  | h :: t => if categoryAvgY g ≤ categoryAvgY h then g :: h :: t else h :: insertByAvgY g t

def sortByAvgY : List CatGroup → List CatGroup
  | [] => []
  | h :: t => insertByAvgY h (sortByAvgY t)

/-- The offset update of one sweep step (lines 417-427): at index 0
(`prev = none`) the offset is unchanged; otherwise, when the
offset-adjusted top starts closer to the previous stored rectangle's bottom
than `categorySpacing`, the offset grows by the shortfall. -/
def sweepCum (prev : Option Bounds) (cum : ℚ) (bounds : Bounds) : ℚ :=
  match prev with
  | none => cum
  | some prevBounds =>
    let prevBottom := prevBounds.y + prevBounds.height
    let currentTop := bounds.y + cum
    if currentTop < prevBottom + categorySpacing then
      cum + (prevBottom + categorySpacing - currentTop)
    else cum

/-- The stored rectangle of one sweep step (lines 429-439): with a zero
offset the initial bounds are kept; otherwise every member node is shifted
and the bounds recomputed. -/
def sweepBounds (g : CatGroup) (cum' : ℚ) : Bounds :=
  if cum' = 0 then calculateCategoryBounds g categoryPadding
  else calculateCategoryBounds (shiftGroupY cum' g) categoryPadding

/-- The forward sweep over one side's bucket (lines 410-440 for the left
side; lines 443-472 are the same code for the right side).  `prev` is the
stored bounds of the previous category (`none` at index 0), `cum` the
running cumulative offset. -/
def sweepGo (prev : Option Bounds) (cum : ℚ) : List CatGroup → List Bounds
  | [] => []
  | g :: rest =>
    let cum' := sweepCum prev cum (calculateCategoryBounds g categoryPadding)
    let bounds' := sweepBounds g cum'
    bounds' :: sweepGo (some bounds') cum' rest

/-- One side's aggregation: sort the bucket by mean `y`, then sweep. -/
def processSide (cats : List CatGroup) : List Bounds :=
  sweepGo none 0 (sortByAvgY cats)

/-! ## Root centering pass (lines 474-496)

The pass reads the root's `y`, the `y` of every descendant and the category
rectangles; only `y` coordinates change. -/

/-- The root-centering pass.  `rootY` is the root's cross-axis coordinate,
`otherYs` the cross-axis coordinates of the remaining descendants,
`bounds` the category rectangles.  With no categories nothing changes. -/
def rootCenteringPass (rootY : ℚ) (otherYs : List ℚ) (bounds : List Bounds) :
    ℚ × List ℚ × List Bounds :=
  match bounds with
  | [] => (rootY, otherYs, [])
  | b :: bs =>
    let minCategoryY := bs.foldl (fun m bd => min m bd.y) b.y
    let maxCategoryY := bs.foldl (fun m bd => max m (bd.y + bd.height)) (b.y + b.height)
    let categoriesVerticalCenter := (minCategoryY + maxCategoryY) / 2
    let rootYOffset := categoriesVerticalCenter - rootY
    (rootY + rootYOffset, otherYs.map (· + rootYOffset),
      (b :: bs).map fun bd => { bd with y := bd.y + rootYOffset })

/-- Midpoint of the vertical union of a nonempty rectangle list (the
quantity the root is meant to be centered on). -/
def unionMidY (b : Bounds) (bs : List Bounds) : ℚ :=
  ((bs.foldl (fun m bd => min m bd.y) b.y) +
    (bs.foldl (fun m bd => max m (bd.y + bd.height)) (b.y + b.height))) / 2

/-! ## Viewport fitter (lines 498-526)

`d3.extent` over the node centers of a nonempty descendants list. -/

def viewportPadding : ℚ := 100

/-- The quantities the viewport fitter computes. -/
structure ViewportResult : Type where
  treeWidth : ℚ
  treeHeight : ℚ
  scale : ℚ
  xOffset : ℚ
  yOffset : ℚ
deriving DecidableEq, Repr

/-- Extent-plus-padding denominators, scale and centering offsets
(lines 499-515).  `first`/`rest` are the node centers (the descendants
list is nonempty: the root always exists), `w`/`h` the viewport size. -/
def viewportFit (w h : ℚ) (first : ℚ × ℚ) (rest : List (ℚ × ℚ)) : ViewportResult :=
  let xMin := rest.foldl (fun m p => min m p.1) first.1
  let xMax := rest.foldl (fun m p => max m p.1) first.1
  let yMin := rest.foldl (fun m p => min m p.2) first.2
  let yMax := rest.foldl (fun m p => max m p.2) first.2
  let treeWidth := xMax - xMin + viewportPadding * 2
  let treeHeight := yMax - yMin + viewportPadding * 2
  let scale := min 1 (min (w / treeWidth) (h / treeHeight) * (9 / 10))
  let xOffset := (w / scale - (xMax - xMin)) / 2 - xMin
  let yOffset := (h / scale - (yMax - yMin)) / 2 - yMin
  ⟨treeWidth, treeHeight, scale, xOffset, yOffset⟩

/-! ## Helper lemmas -/

theorem foldl_min_le {α : Type} (g : α → ℚ) :
    ∀ (l : List α) (a : ℚ), l.foldl (fun m d => min m (g d)) a ≤ a := by
  intro l
  induction l with
  | nil => intro a; exact le_refl a
  | cons x xs ih =>
    intro a
    exact le_trans (ih (min a (g x))) (min_le_left _ _)

theorem le_foldl_max {α : Type} (g : α → ℚ) :
    ∀ (l : List α) (a : ℚ), a ≤ l.foldl (fun m d => max m (g d)) a := by
  intro l
  induction l with
  | nil => intro a; exact le_refl a
  | cons x xs ih =>
    intro a
    exact le_trans (le_max_left _ _) (ih (max a (g x)))

/-- Unfolding of `viewportFit` into its record fields. -/
theorem viewportFit_eq (w h : ℚ) (first : ℚ × ℚ) (rest : List (ℚ × ℚ)) :
    viewportFit w h first rest =
      { treeWidth := rest.foldl (fun m p => max m p.1) first.1
          - rest.foldl (fun m p => min m p.1) first.1 + viewportPadding * 2
        treeHeight := rest.foldl (fun m p => max m p.2) first.2
          - rest.foldl (fun m p => min m p.2) first.2 + viewportPadding * 2
        scale := min 1 (min
          (w / (rest.foldl (fun m p => max m p.1) first.1
            - rest.foldl (fun m p => min m p.1) first.1 + viewportPadding * 2))
          (h / (rest.foldl (fun m p => max m p.2) first.2
            - rest.foldl (fun m p => min m p.2) first.2 + viewportPadding * 2)) * (9 / 10))
        xOffset := (w / min 1 (min
          (w / (rest.foldl (fun m p => max m p.1) first.1
            - rest.foldl (fun m p => min m p.1) first.1 + viewportPadding * 2))
          (h / (rest.foldl (fun m p => max m p.2) first.2
            - rest.foldl (fun m p => min m p.2) first.2 + viewportPadding * 2)) * (9 / 10))
          - (rest.foldl (fun m p => max m p.1) first.1
            - rest.foldl (fun m p => min m p.1) first.1)) / 2
          - rest.foldl (fun m p => min m p.1) first.1
        yOffset := (h / min 1 (min
          (w / (rest.foldl (fun m p => max m p.1) first.1
            - rest.foldl (fun m p => min m p.1) first.1 + viewportPadding * 2))
          (h / (rest.foldl (fun m p => max m p.2) first.2
            - rest.foldl (fun m p => min m p.2) first.2 + viewportPadding * 2)) * (9 / 10))
          - (rest.foldl (fun m p => max m p.2) first.2
            - rest.foldl (fun m p => min m p.2) first.2)) / 2
          - rest.foldl (fun m p => min m p.2) first.2 } :=
  rfl

/-! ## C7, C10, C8 : normalizer -/

/-- C7: an item without a name is dropped together with its subtree and
normalization continues, so `{name:"root", items:[{status:"x"}]}` becomes a
one-node leaf tree; the array root `[{status:"x"}]` normalizes to no tree at
all (the EmptyTree hard failure: the caller has nothing to lay out). -/
theorem c7_unnamed_dropped_empty_tree :
    transformData (.obj (.mk (some "root") none none none none none none
        (some (.cons (.mk none (some "x") none none none none none none) .nil))))
      = some (.mk "root" none none none none none .nil)
    ∧ transformData (.arr (.cons (.mk none (some "x") none none none none none none) .nil))
      = none :=
  ⟨rfl, rfl⟩

/-- C10: normalizing the empty array root yields a synthetic root named
"Root" with an empty children sequence — neither a failure nor the
EmptyTree case. -/
theorem c10_empty_array_root :
    transformData (.arr .nil) = some (.mk "Root" none none none none none .nil) :=
  rfl

/-- C8 counterexample: for an item carrying both `link:"a"` and
`links:"b"`, the normalized node's link is `"b"` — the `links` field wins,
contradicting the claim that the explicit `link` field wins. -/
theorem c8_counterexample :
    (createHierarchy (.mk (some "n") none (some "a") (some "b") none none none none)).map
        JNode.link = some (some "b")
    ∧ (some "b" : Option String) ≠ some "a" :=
  ⟨rfl, by simp⟩

/-- C8 amended: for every named item the normalized node's link equals the
`links` field when that is present, and the `link` field is consulted only
as a fallback when `links` is absent — when both are present, `links`
wins. -/
theorem c8_links_wins (nm : String)
    (status link links category side visibility : Option String)
    (items : Option RawList) :
    (createHierarchy (.mk (some nm) status link links category side visibility items)).map
        JNode.link
      = some (links.orElse fun _ => link) :=
  rfl

/-! ## C2 : root centering -/

/-- C2 counterexample: root at `y = 0` with a single category rectangle
`y = 100, height = 300`.  The pass moves the root to `250` (the pre-pass
midpoint) but also shifts the rectangle to `y = 350`, whose post-pass
midpoint is `500 ≠ 250`: the root does not end at the midpoint of the
rectangles as they stand after the pass. -/
theorem c2_counterexample :
    (rootCenteringPass 0 [] [⟨0, 100, 0, 300⟩]).1 = 250
    ∧ (rootCenteringPass 0 [] [⟨0, 100, 0, 300⟩]).2.2 = [⟨0, 350, 0, 300⟩]
    ∧ unionMidY ⟨0, 350, 0, 300⟩ [] = 500
    ∧ (250 : ℚ) ≠ 500 := by
  refine ⟨?_, ?_, ?_, by norm_num⟩
  · norm_num [rootCenteringPass]
  · norm_num [rootCenteringPass]
  · norm_num [unionMidY]

/-- C2 amended: after the root-centering pass runs on a layout with at least
one category, the root's cross-axis coordinate equals the midpoint of the
vertical union of the category rectangles as they stood *before* the pass
(the pass shifts every node and every rectangle by the same delta, so
relative geometry is unchanged); with zero categories the pass changes
nothing. -/
theorem c2_root_at_prepass_midpoint (rootY : ℚ) (otherYs : List ℚ)
    (b : Bounds) (bs : List Bounds) :
    (rootCenteringPass rootY otherYs (b :: bs)).1 = unionMidY b bs
    ∧ rootCenteringPass rootY otherYs [] = (rootY, otherYs, []) := by
  constructor
  · show rootY + (unionMidY b bs - rootY) = unionMidY b bs
    ring
  · rfl

/-! ## C6 : viewport fitter -/

/-- C6: for every tree (including a single node, whose center extent has
zero width and height) the viewport fitter's denominators are the extent
plus twice the fixed padding and are strictly positive — no division by
zero — and the scale equals `min(1, 0.9 × min(vw/paddedW, vh/paddedH))`,
never exceeding 1 (and, for a positive viewport, staying positive). -/
theorem c6_viewport_fit (w h : ℚ) (first : ℚ × ℚ) (rest : List (ℚ × ℚ))
    (hw : 0 < w) (hh : 0 < h) :
    0 < (viewportFit w h first rest).treeWidth
    ∧ 0 < (viewportFit w h first rest).treeHeight
    ∧ (viewportFit w h first rest).scale
        = min 1 ((9 / 10) * min (w / (viewportFit w h first rest).treeWidth)
            (h / (viewportFit w h first rest).treeHeight))
    ∧ (viewportFit w h first rest).scale ≤ 1
    ∧ 0 < (viewportFit w h first rest).scale := by
  have h1 := foldl_min_le (fun p : ℚ × ℚ => p.1) rest first.1
  have h2 := le_foldl_max (fun p : ℚ × ℚ => p.1) rest first.1
  have h3 := foldl_min_le (fun p : ℚ × ℚ => p.2) rest first.2
  have h4 := le_foldl_max (fun p : ℚ × ℚ => p.2) rest first.2
  simp only [] at h1 h2 h3 h4
  have hx : rest.foldl (fun m p => min m p.1) first.1
      ≤ rest.foldl (fun m p => max m p.1) first.1 := le_trans h1 h2
  have hy : rest.foldl (fun m p => min m p.2) first.2
      ≤ rest.foldl (fun m p => max m p.2) first.2 := le_trans h3 h4
  rw [viewportFit_eq]
  have htw : (0 : ℚ) < rest.foldl (fun m p => max m p.1) first.1
      - rest.foldl (fun m p => min m p.1) first.1 + viewportPadding * 2 := by
    have : (0 : ℚ) < viewportPadding * 2 := by norm_num [viewportPadding]
    linarith
  have hth : (0 : ℚ) < rest.foldl (fun m p => max m p.2) first.2
      - rest.foldl (fun m p => min m p.2) first.2 + viewportPadding * 2 := by
    have : (0 : ℚ) < viewportPadding * 2 := by norm_num [viewportPadding]
    linarith
  refine ⟨htw, hth, ?_, min_le_left _ _, ?_⟩
  · exact congrArg (min 1) (mul_comm _ _)
  · have h5 := div_pos hw htw
    have h6 := div_pos hh hth
    have h7 := lt_min h5 h6
    exact lt_min one_pos (by nlinarith)

/-! ## C3, C4 : leaf clustering and side inversion -/

theorem lforestGet_singleCol (newX : ℚ) :
    ∀ (cs : LForest) (i : Nat) (c : LTree), lforestGet cs i = some c →
      lforestGet (singleColForest newX cs) i
        = some (.mk newX c.y c.effSide c.children)
  | .nil, _, _, h => by cases h
  | .cons (.mk cx cy cside ccs) ts, 0, c, h => by
    cases h
    rfl
  | .cons (.mk cx cy cside ccs) ts, n + 1, c, h =>
    lforestGet_singleCol newX ts n c h

theorem lforestGet_invertForest :
    ∀ (cs : LForest) (i : Nat),
      lforestGet (invertForest cs) i = (lforestGet cs i).map invertNode
  | .nil, 0 => rfl
  | .nil, _ + 1 => rfl
  | .cons _ _, 0 => rfl
  | .cons _ ts, n + 1 => lforestGet_invertForest ts n

theorem lforestGet_modify (f : LTree → LTree) :
    ∀ (cs : LForest) (i : Nat),
      lforestGet (lforestModify i f cs) i = (lforestGet cs i).map f
  | .nil, 0 => rfl
  | .nil, _ + 1 => rfl
  | .cons _ _, 0 => rfl
  | .cons _ ts, n + 1 => lforestGet_modify f ts n

/-- C3 counterexample: a right-side parent at the origin with exactly three
leaf children (child count "three or fewer").  With
`nodeSpacingHorizontal = 1000` and `nodeSpacingVertical = 200` the pass
applies the two-column grid: child 0 lands at `(350, -120)` — its
depth-axis coordinate is not the single-column `0 + 1000·0.5 = 500` and its
cross-axis coordinate has been moved off its tree-layout value `0`. -/
theorem c3_counterexample :
    clusterNode 1000 200
        (.mk 0 0 .right (.cons (.mk 1000 0 .right .nil)
          (.cons (.mk 1000 100 .right .nil) (.cons (.mk 1000 200 .right .nil) .nil))))
      = .mk 0 0 .right (.cons (.mk 350 (-120) .right .nil)
          (.cons (.mk 650 (-120) .right .nil) (.cons (.mk 350 120 .right .nil) .nil)))
    ∧ (350 : ℚ) ≠ 0 + 1000 * (1 / 2) * dirOf .right
    ∧ (-120 : ℚ) ≠ 0 := by
  refine ⟨?_, by norm_num [dirOf], by norm_num⟩
  simp only [clusterNode]
  norm_num [LForest.length, LForest.allLeaves, LTree.isLeaf, dirOf, gridForest]

/-- C3 amended: the single-column arm is applied only to parents with *two*
or fewer (all-leaf) children — at exactly three children the two-column grid
already applies (the code tests `numChildren > 2`).  For a parent with at
most two leaf children, each child's depth-axis coordinate becomes the
parent's plus 50% of the base horizontal spacing in the direction of the
parent's effective side, and its cross-axis coordinate, side and children
are left exactly as the tree layout placed them. -/
theorem c3_single_column_two_or_fewer (H V x y : ℚ) (s : Side) (cs : LForest)
    (hleaves : cs.allLeaves = true) (hlen : cs.length ≤ 2)
    (i : Nat) (c : LTree) (hc : lforestGet cs i = some c) :
    lforestGet (clusterNode H V (.mk x y s cs)).children i
      = some (.mk (x + H * (1 / 2) * dirOf s) c.y c.effSide c.children) := by
  cases cs with
  | nil => cases hc
  | cons t ts =>
    have hpos : 0 < (LForest.cons t ts).length := by
      show 0 < ts.length + 1
      omega
    have hnot : ¬ 2 < (LForest.cons t ts).length := by omega
    rw [clusterNode]
    rw [if_pos ⟨hpos, hleaves⟩, if_neg hnot]
    exact lforestGet_singleCol _ _ i c hc

/-- C3 witness: a parent with two leaf children; child 1 moves to
`x = 0 + 1000·0.5·1 = 500` and keeps `y = 2`. -/
theorem c3_witness :
    ((LForest.cons (.mk 9 1 .right .nil) (.cons (.mk 9 2 .right .nil) .nil)).allLeaves = true
      ∧ (LForest.cons (.mk 9 1 .right .nil) (.cons (.mk 9 2 .right .nil) .nil)).length ≤ 2
      ∧ lforestGet (.cons (.mk 9 1 .right .nil) (.cons (.mk 9 2 .right .nil) .nil)) 1
          = some (.mk 9 2 .right .nil))
    ∧ lforestGet (clusterNode 1000 200 (.mk 0 0 .right
          (.cons (.mk 9 1 .right .nil) (.cons (.mk 9 2 .right .nil) .nil)))).children 1
        = some (.mk (0 + 1000 * (1 / 2) * dirOf .right)
            (LTree.mk 9 2 .right .nil).y (LTree.mk 9 2 .right .nil).effSide
            (LTree.mk 9 2 .right .nil).children) :=
  ⟨⟨rfl, by decide, rfl⟩,
    c3_single_column_two_or_fewer 1000 200 0 0 .right
      (.cons (.mk 9 1 .right .nil) (.cons (.mk 9 2 .right .nil) .nil)) rfl (by decide) 1
      (.mk 9 2 .right .nil) rfl⟩

/-- C4 counterexample: a right-side root whose single leaf child sits at
depth-axis distance 1000.  Flipping only the child's effective side (all
other inputs held equal), the child's final depth-axis coordinate after the
side-inversion and leaf-clustering passes is 500 in *both* scenarios — the
clustering overwrite uses the parent's side — so the coordinate under
"left" is not the negation of the coordinate under "right". -/
theorem c4_counterexample :
    (lgetNode [0] (xPipeline 1000 200
        (.mk 0 0 .right (.cons (.mk 1000 0 .left .nil) .nil)))).map LTree.x
      = some 500
    ∧ (lgetNode [0] (xPipeline 1000 200
        (.mk 0 0 .right (.cons (.mk 1000 0 .right .nil) .nil)))).map LTree.x
      = some 500
    ∧ (some (500 : ℚ)) ≠ some (-(500 : ℚ)) := by
  refine ⟨?_, ?_, by norm_num⟩ <;>
  · simp only [xPipeline, invertNode, invertForest, clusterNode]
    norm_num [LForest.length, LForest.allLeaves, LTree.isLeaf, dirOf, singleColForest,
      lgetNode, lforestGet, LTree.children, LTree.x]

/-- C4 amended: the negation law holds for the side-inversion pass itself
(before leaf clustering): overwriting a node's effective side to "left" and
running the inversion yields exactly the negation of its coordinate under
"right", and the value negated is the node's pre-inversion distance-from-
root coordinate, captured once — never an already-negated value.  (After
leaf clustering the law fails: clustered children take their depth-axis
coordinate from the parent's effective side, see the counterexample.) -/
theorem c4_inversion_negates :
    ∀ (p : List Nat) (t n : LTree), lgetNode p t = some n →
      (lgetNode p (invertNode (setSideAt p .left t))).map LTree.x = some (-n.x)
      ∧ (lgetNode p (invertNode (setSideAt p .right t))).map LTree.x = some n.x
  | [], .mk x y s cs, n, h => by
    cases h
    constructor <;> rfl
  | i :: p, .mk x y s cs, n, h => by
    have h' : (lforestGet cs i).bind (lgetNode p) = some n := h
    cases hget : lforestGet cs i with
    | none => rw [hget] at h'; cases h'
    | some c =>
      rw [hget] at h'
      have hrec := c4_inversion_negates p c n h'
      have key : ∀ sd : Side,
          lgetNode (i :: p) (invertNode (setSideAt (i :: p) sd (.mk x y s cs)))
            = lgetNode p (invertNode (setSideAt p sd c)) := by
        intro sd
        show (lforestGet (invertForest (lforestModify i (setSideAt p sd) cs)) i).bind
            (lgetNode p) = _
        rw [lforestGet_invertForest, lforestGet_modify, hget]
        rfl
      rw [key .left, key .right]
      exact hrec

/-- C4 witness: a single right-side node at `x = 7`; under "left" the
inversion yields `-7`, under "right" it stays `7`. -/
theorem c4_witness :
    lgetNode [] (.mk 7 3 .right .nil) = some (.mk 7 3 .right .nil)
    ∧ (lgetNode [] (invertNode (setSideAt [] .left (.mk 7 3 .right .nil)))).map LTree.x
        = some (-(LTree.mk 7 3 .right .nil).x)
    ∧ (lgetNode [] (invertNode (setSideAt [] .right (.mk 7 3 .right .nil)))).map LTree.x
        = some (LTree.mk 7 3 .right .nil).x :=
  ⟨rfl, (c4_inversion_negates [] (.mk 7 3 .right .nil) (.mk 7 3 .right .nil) rfl).1,
    (c4_inversion_negates [] (.mk 7 3 .right .nil) (.mk 7 3 .right .nil) rfl).2⟩

/-! ## C5 : sizing pass -/

theorem depthScaleOf_pos (d : Nat) : 0 < depthScaleOf d :=
  pow_pos (by norm_num) d

theorem depthScaleOf_antitone {d1 d2 : Nat} (h : d1 ≤ d2) :
    depthScaleOf d2 ≤ depthScaleOf d1 :=
  pow_le_pow_of_le_one (by norm_num) (by norm_num) h

/-- Every node's width is `400 · nodeScale · 0.85^depth`
(`LEAF_WIDTH = 2 · NODE_SIZE`). -/
theorem sizedWidth_eq (s : SizeSettings) (n : RawLayoutNode) :
    sizedWidth s n = 400 * s.nodeScale * depthScaleOf n.depth := by
  rcases n with ⟨d, l, nm⟩
  cases l <;> simp [sizedWidth, LEAF_WIDTH, NODE_SIZE] <;> ring

theorem sizedHeight_nonleaf (s : SizeSettings) (n : RawLayoutNode)
    (h : n.isLeaf = false) :
    sizedHeight s n = 400 * s.nodeScale * depthScaleOf n.depth := by
  simp [sizedHeight, h, NODE_SIZE]
  ring

theorem sizedHeight_min_le (s : SizeSettings) (n : RawLayoutNode)
    (h : n.isLeaf = true) :
    LEAF_HEIGHT * s.nodeScale * depthScaleOf n.depth ≤ sizedHeight s n := by
  simp only [sizedHeight, h, if_true]
  exact le_max_left _ _

/-- A one-character name wraps to a single line whatever the width budget
(the word loop never runs). -/
theorem wrapText_single_char (m : ℚ) : wrapText ['a'] m = [['a']] := by
  have h : ('a' = ' ') = False := eq_false (by decide)
  simp [wrapText, splitWsGo, wrapGo, h]

/-- C5 amended: for positive configuration scales every node's `nodeWidth`
and `nodeHeight` are strictly positive, `nodeWidth` is non-increasing with
depth, a leaf's `nodeHeight` never falls below the depth-scaled floor
`LEAF_HEIGHT · nodeScale · 0.85^depth`, and `nodeHeight` is non-increasing
with depth *among non-leaf nodes*.  (A leaf's `nodeHeight` grows with its
wrapped text and can exceed the height of a shallower node — see the
counterexample — so height is not non-increasing with depth in general.)
`n`, `n2` range over the depth/leaf-flag/name records of the descendants;
`sizePass` decorates each record with exactly these two values. -/
theorem c5_sizes (s : SizeSettings) (hns : 0 < s.nodeScale) (hts : 0 < s.textScale)
    (n n2 : RawLayoutNode) (hd : n.depth ≤ n2.depth) :
    0 < sizedWidth s n ∧ 0 < sizedHeight s n
    ∧ (n.isLeaf = true → LEAF_HEIGHT * s.nodeScale * depthScaleOf n.depth ≤ sizedHeight s n)
    ∧ sizedWidth s n2 ≤ sizedWidth s n
    ∧ (n.isLeaf = false → n2.isLeaf = false → sizedHeight s n2 ≤ sizedHeight s n) := by
  have h400 : (0 : ℚ) < 400 * s.nodeScale := by nlinarith
  have hds := depthScaleOf_pos n.depth
  refine ⟨?_, ?_, fun hl => sizedHeight_min_le s n hl, ?_, ?_⟩
  · rw [sizedWidth_eq]
    exact mul_pos h400 hds
  · cases hl : n.isLeaf with
    | true =>
      refine lt_of_lt_of_le ?_ (sizedHeight_min_le s n hl)
      have hL : (0 : ℚ) < LEAF_HEIGHT := by norm_num [LEAF_HEIGHT]
      exact mul_pos (mul_pos hL hns) hds
    | false =>
      rw [sizedHeight_nonleaf s n hl]
      exact mul_pos h400 hds
  · rw [sizedWidth_eq, sizedWidth_eq]
    exact mul_le_mul_of_nonneg_left (depthScaleOf_antitone hd) (le_of_lt h400)
  · intro hl hl2
    rw [sizedHeight_nonleaf s n hl, sizedHeight_nonleaf s n2 hl2]
    exact mul_le_mul_of_nonneg_left (depthScaleOf_antitone hd) (le_of_lt h400)

/-- C5 witness: defaults `nodeScale = 1.2`, `textScale = 1.3`, a non-leaf
root "r" at depth 0 and a leaf child "a" at depth 1. -/
theorem c5_witness :
    ((0 : ℚ) < SizeSettings.nodeScale ⟨6 / 5, 13 / 10⟩)
    ∧ ((0 : ℚ) < SizeSettings.textScale ⟨6 / 5, 13 / 10⟩)
    ∧ (RawLayoutNode.depth ⟨0, false, ['r']⟩ ≤ RawLayoutNode.depth ⟨1, true, ['a']⟩)
    ∧ (0 < sizedWidth ⟨6 / 5, 13 / 10⟩ ⟨0, false, ['r']⟩
      ∧ 0 < sizedHeight ⟨6 / 5, 13 / 10⟩ ⟨0, false, ['r']⟩
      ∧ ((⟨0, false, ['r']⟩ : RawLayoutNode).isLeaf = true →
          LEAF_HEIGHT * SizeSettings.nodeScale ⟨6 / 5, 13 / 10⟩
            * depthScaleOf (RawLayoutNode.depth ⟨0, false, ['r']⟩)
          ≤ sizedHeight ⟨6 / 5, 13 / 10⟩ ⟨0, false, ['r']⟩)
      ∧ sizedWidth ⟨6 / 5, 13 / 10⟩ ⟨1, true, ['a']⟩
          ≤ sizedWidth ⟨6 / 5, 13 / 10⟩ ⟨0, false, ['r']⟩
      ∧ ((⟨0, false, ['r']⟩ : RawLayoutNode).isLeaf = false →
          (⟨1, true, ['a']⟩ : RawLayoutNode).isLeaf = false →
          sizedHeight ⟨6 / 5, 13 / 10⟩ ⟨1, true, ['a']⟩
            ≤ sizedHeight ⟨6 / 5, 13 / 10⟩ ⟨0, false, ['r']⟩)) :=
  ⟨by norm_num, by norm_num, by decide,
    c5_sizes ⟨6 / 5, 13 / 10⟩ (by norm_num) (by norm_num)
      ⟨0, false, ['r']⟩ ⟨1, true, ['a']⟩ (by decide)⟩

/-- C5 counterexample: with `nodeScale = 1.2` and `textScale = 10` (both
valid configuration values), the sizing pass on a non-leaf root "r" with a
single leaf child "a" gives the depth-1 leaf height 629 while the depth-0
root gets 480: a node at greater depth *does* get a larger `nodeHeight`, so
height is not non-increasing with depth. -/
theorem c5_counterexample :
    sizePass ⟨6 / 5, 10⟩ [⟨0, false, ['r']⟩, ⟨1, true, ['a']⟩]
      = [(⟨0, false, ['r']⟩, 480, 480), (⟨1, true, ['a']⟩, 408, 629)]
    ∧ RawLayoutNode.depth ⟨0, false, ['r']⟩ ≤ RawLayoutNode.depth ⟨1, true, ['a']⟩
    ∧ ¬ ((629 : ℚ) ≤ 480) := by
  refine ⟨?_, by decide, by norm_num⟩
  norm_num [sizePass, sizedWidth, sizedHeight, wrapText_single_char, depthScaleOf,
    LEAF_WIDTH, LEAF_HEIGHT, NODE_SIZE, TEXT_LINE_HEIGHT, TEXT_FONT_SIZE, max_def]

/-! ## C9 : attribute inheritance resolver -/

theorem resolveNode_data (a b c : List (Option String)) (t : ResTree) :
    (resolveNode a b c t).data = t.data := by
  cases t
  rfl

theorem forestGet_resolveForest (a b c : List (Option String)) :
    ∀ (cs : ResForest) (i : Nat),
      forestGet (resolveForest a b c cs) i = (forestGet cs i).map (resolveNode a b c)
  | .nil, 0 => rfl
  | .nil, _ + 1 => rfl
  | .cons _ _, 0 => rfl
  | .cons _ ts, n + 1 => forestGet_resolveForest a b c ts n

mutual
theorem resolveNode_idem (a b c : List (Option String)) :
    ∀ t : ResTree, resolveNode a b c (resolveNode a b c t) = resolveNode a b c t
  | .mk d _ cs =>
    congrArg
      (ResTree.mk d ⟨resolveField d.category a, resolveField d.side b,
        resolveField d.visibility c⟩)
      (resolveForest_idem (d.category :: a) (d.side :: b) (d.visibility :: c) cs)
theorem resolveForest_idem (a b c : List (Option String)) :
    ∀ cs : ResForest, resolveForest a b c (resolveForest a b c cs) = resolveForest a b c cs
  | .nil => rfl
  | .cons t ts =>
    congrArg₂ ResForest.cons (resolveNode_idem a b c t) (resolveForest_idem a b c ts)
end

/-- The per-node characterization of the resolver, generalized over the
ancestor chains the recursion carries: the node at path `p` gets, for each
attribute, its own explicit value, else the nearest ancestor's explicit
value (the ancestors inside the subtree first, then the outer chain). -/
theorem getNode_resolveNode :
    ∀ (p : List Nat) (a b c : List (Option String)) (t n : ResTree),
      getNode p (resolveNode a b c t) = some n →
      n.inherited = ⟨resolveField n.data.category
          ((ancestorAttrs p (resolveNode a b c t)).map Attrs.category ++ a),
        resolveField n.data.side
          ((ancestorAttrs p (resolveNode a b c t)).map Attrs.side ++ b),
        resolveField n.data.visibility
          ((ancestorAttrs p (resolveNode a b c t)).map Attrs.visibility ++ c)⟩
  | [], a, b, c, t, n, h => by
    cases t with
    | mk d i cs =>
      have hn : n = resolveNode a b c (.mk d i cs) :=
        (Option.some.inj h).symm
      subst hn
      rfl
  | i :: p, a, b, c, t, n, h => by
    cases t with
    | mk d i0 cs =>
      have hstep : (forestGet
            (resolveForest (d.category :: a) (d.side :: b) (d.visibility :: c) cs) i).bind
          (getNode p) = some n := h
      rw [forestGet_resolveForest] at hstep
      cases hget : forestGet cs i with
      | none =>
        rw [hget] at hstep
        simp at hstep
      | some ch =>
        rw [hget] at hstep
        simp only [Option.map_some', Option.some_bind] at hstep
        have hrec := getNode_resolveNode p (d.category :: a) (d.side :: b)
          (d.visibility :: c) ch n hstep
        have hanc : ancestorAttrs (i :: p) (resolveNode a b c (.mk d i0 cs))
            = ancestorAttrs p
                (resolveNode (d.category :: a) (d.side :: b) (d.visibility :: c) ch)
              ++ [d] := by
          show (match forestGet
              (resolveForest (d.category :: a) (d.side :: b) (d.visibility :: c) cs) i with
            | none => ([] : List Attrs)
            | some c' => ancestorAttrs p c' ++ [d]) = _
          rw [forestGet_resolveForest, hget]
          rfl
        rw [hanc, List.map_append, List.map_append, List.map_append,
          List.append_assoc, List.append_assoc, List.append_assoc]
        exact hrec

/-- C9: independently for each of category, side and visibility, and for
every node of the tree, the resolver's inherited value is the node's own
explicit value when present, else the explicit value of the nearest
ancestor carrying one (the ancestor chain walked nearest-first), else it
stays undefined; and since the resolver reads only the unchanged underlying
data fields, re-running it on an already-resolved tree yields exactly the
same result (idempotence). -/
theorem c9_inheritance_resolver (t : ResTree) :
    (∀ (p : List Nat) (n : ResTree), getNode p (resolve t) = some n →
      n.inherited = ⟨resolveField n.data.category
          ((ancestorAttrs p (resolve t)).map Attrs.category),
        resolveField n.data.side ((ancestorAttrs p (resolve t)).map Attrs.side),
        resolveField n.data.visibility
          ((ancestorAttrs p (resolve t)).map Attrs.visibility)⟩)
    ∧ resolve (resolve t) = resolve t := by
  constructor
  · intro p n h
    have hgen := getNode_resolveNode p [] [] [] t n h
    simpa using hgen
  · exact resolveNode_idem [] [] [] t

/-- C9 witness: a root with explicit category "c" and visibility "v" whose
child carries only an explicit side; the child inherits "c" and "v", keeps
its own side, and re-resolving changes nothing. -/
theorem c9_witness :
    getNode [0] (resolve (.mk ⟨some "c", none, some "v"⟩ ⟨none, none, none⟩
        (.cons (.mk ⟨none, some "left", none⟩ ⟨none, none, none⟩ .nil) .nil)))
      = some (.mk ⟨none, some "left", none⟩ ⟨some "c", some "left", some "v"⟩ .nil)
    ∧ (ResTree.mk ⟨none, some "left", none⟩
          ⟨some "c", some "left", some "v"⟩ .nil).inherited
      = ⟨resolveField (ResTree.mk ⟨none, some "left", none⟩
            ⟨some "c", some "left", some "v"⟩ .nil).data.category
          ((ancestorAttrs [0] (resolve (.mk ⟨some "c", none, some "v"⟩ ⟨none, none, none⟩
            (.cons (.mk ⟨none, some "left", none⟩ ⟨none, none, none⟩ .nil) .nil)))).map
            Attrs.category),
        resolveField (ResTree.mk ⟨none, some "left", none⟩
            ⟨some "c", some "left", some "v"⟩ .nil).data.side
          ((ancestorAttrs [0] (resolve (.mk ⟨some "c", none, some "v"⟩ ⟨none, none, none⟩
            (.cons (.mk ⟨none, some "left", none⟩ ⟨none, none, none⟩ .nil) .nil)))).map
            Attrs.side),
        resolveField (ResTree.mk ⟨none, some "left", none⟩
            ⟨some "c", some "left", some "v"⟩ .nil).data.visibility
          ((ancestorAttrs [0] (resolve (.mk ⟨some "c", none, some "v"⟩ ⟨none, none, none⟩
            (.cons (.mk ⟨none, some "left", none⟩ ⟨none, none, none⟩ .nil) .nil)))).map
            Attrs.visibility)⟩ :=
  ⟨rfl,
    (c9_inheritance_resolver (.mk ⟨some "c", none, some "v"⟩ ⟨none, none, none⟩
        (.cons (.mk ⟨none, some "left", none⟩ ⟨none, none, none⟩ .nil) .nil))).1 [0]
      (.mk ⟨none, some "left", none⟩ ⟨some "c", some "left", some "v"⟩ .nil) rfl⟩

/-! ## C1 : category aggregation sweep -/

theorem foldl_min_shift {α : Type} (c : ℚ) (f1 f2 : α → ℚ) (hf : ∀ d, f1 d = f2 d + c) :
    ∀ (l : List α) (a : ℚ),
      l.foldl (fun m d => min m (f1 d)) (a + c) = l.foldl (fun m d => min m (f2 d)) a + c
  | [], _ => rfl
  | x :: xs, a => by
    show List.foldl _ (min (a + c) (f1 x)) xs = List.foldl _ (min a (f2 x)) xs + c
    rw [hf x, min_add_add_right]
    exact foldl_min_shift c f1 f2 hf xs (min a (f2 x))

theorem foldl_max_shift {α : Type} (c : ℚ) (f1 f2 : α → ℚ) (hf : ∀ d, f1 d = f2 d + c) :
    ∀ (l : List α) (a : ℚ),
      l.foldl (fun m d => max m (f1 d)) (a + c) = l.foldl (fun m d => max m (f2 d)) a + c
  | [], _ => rfl
  | x :: xs, a => by
    show List.foldl _ (max (a + c) (f1 x)) xs = List.foldl _ (max a (f2 x)) xs + c
    rw [hf x, max_add_add_right]
    exact foldl_max_shift c f1 f2 hf xs (max a (f2 x))

/-- Unfolding of `calculateCategoryBounds` into its record fields. -/
theorem calcBounds_eq (g : CatGroup) (padding : ℚ) :
    calculateCategoryBounds g padding =
      { x := g.rest.foldl (fun m d => min m (d.x - d.nodeWidth / 2))
          (g.first.x - g.first.nodeWidth / 2) - padding
        y := g.rest.foldl (fun m d => min m (d.y - d.nodeHeight / 2))
          (g.first.y - g.first.nodeHeight / 2) - padding
        width := g.rest.foldl (fun m d => max m (d.x + d.nodeWidth / 2))
            (g.first.x + g.first.nodeWidth / 2)
          - g.rest.foldl (fun m d => min m (d.x - d.nodeWidth / 2))
            (g.first.x - g.first.nodeWidth / 2) + 2 * padding
        height := g.rest.foldl (fun m d => max m (d.y + d.nodeHeight / 2))
            (g.first.y + g.first.nodeHeight / 2)
          - g.rest.foldl (fun m d => min m (d.y - d.nodeHeight / 2))
            (g.first.y - g.first.nodeHeight / 2) + 2 * padding } :=
  rfl

/-- A category's rectangle has nonnegative height as soon as its first
member's footprint height is nonnegative (the extent of a nonempty set
contains that member's extent). -/
theorem calcBounds_height_nonneg (g : CatGroup) (h : 0 ≤ g.first.nodeHeight) :
    0 ≤ (calculateCategoryBounds g categoryPadding).height := by
  have h1 := foldl_min_le (fun d : CatNode => d.y - d.nodeHeight / 2) g.rest
    (g.first.y - g.first.nodeHeight / 2)
  have h2 := le_foldl_max (fun d : CatNode => d.y + d.nodeHeight / 2) g.rest
    (g.first.y + g.first.nodeHeight / 2)
  simp only [] at h1 h2
  rw [calcBounds_eq]
  show (0 : ℚ) ≤ _ - _ + 2 * categoryPadding
  have hp : (0 : ℚ) ≤ 2 * categoryPadding := by norm_num [categoryPadding]
  linarith

/-- Shifting every member node by `c` shifts the rectangle's `y` by `c` and
preserves its height. -/
theorem calcBounds_shift (g : CatGroup) (c : ℚ) :
    (calculateCategoryBounds (shiftGroupY c g) categoryPadding).y
        = (calculateCategoryBounds g categoryPadding).y + c
    ∧ (calculateCategoryBounds (shiftGroupY c g) categoryPadding).height
        = (calculateCategoryBounds g categoryPadding).height := by
  have hmin : (g.rest.map (shiftNodeY c)).foldl (fun m d => min m (d.y - d.nodeHeight / 2))
        ((shiftNodeY c g.first).y - (shiftNodeY c g.first).nodeHeight / 2)
      = g.rest.foldl (fun m d => min m (d.y - d.nodeHeight / 2))
          (g.first.y - g.first.nodeHeight / 2) + c := by
    rw [List.foldl_map]
    have hseed : (shiftNodeY c g.first).y - (shiftNodeY c g.first).nodeHeight / 2
        = (g.first.y - g.first.nodeHeight / 2) + c := by
      simp [shiftNodeY]
      ring
    rw [hseed]
    exact foldl_min_shift c (fun d => (shiftNodeY c d).y - (shiftNodeY c d).nodeHeight / 2)
      (fun d => d.y - d.nodeHeight / 2) (fun d => by simp [shiftNodeY]; ring) g.rest _
  have hmax : (g.rest.map (shiftNodeY c)).foldl (fun m d => max m (d.y + d.nodeHeight / 2))
        ((shiftNodeY c g.first).y + (shiftNodeY c g.first).nodeHeight / 2)
      = g.rest.foldl (fun m d => max m (d.y + d.nodeHeight / 2))
          (g.first.y + g.first.nodeHeight / 2) + c := by
    rw [List.foldl_map]
    have hseed : (shiftNodeY c g.first).y + (shiftNodeY c g.first).nodeHeight / 2
        = (g.first.y + g.first.nodeHeight / 2) + c := by
      simp [shiftNodeY]
      ring
    rw [hseed]
    exact foldl_max_shift c (fun d => (shiftNodeY c d).y + (shiftNodeY c d).nodeHeight / 2)
      (fun d => d.y + d.nodeHeight / 2) (fun d => by simp [shiftNodeY]; ring) g.rest _
  rw [calcBounds_eq, calcBounds_eq]
  constructor
  · show _ - categoryPadding = _ - categoryPadding + c
    rw [show (shiftGroupY c g).first = shiftNodeY c g.first from rfl,
      show (shiftGroupY c g).rest = g.rest.map (shiftNodeY c) from rfl, hmin]
    ring
  · show _ - _ + 2 * categoryPadding = _ - _ + 2 * categoryPadding
    rw [show (shiftGroupY c g).first = shiftNodeY c g.first from rfl,
      show (shiftGroupY c g).rest = g.rest.map (shiftNodeY c) from rfl, hmin, hmax]
    ring

theorem sweepBounds_y (g : CatGroup) (c : ℚ) :
    (sweepBounds g c).y = (calculateCategoryBounds g categoryPadding).y + c := by
  unfold sweepBounds
  by_cases hc : c = 0
  · rw [if_pos hc, hc]
    ring
  · rw [if_neg hc, (calcBounds_shift g c).1]

theorem sweepBounds_height (g : CatGroup) (c : ℚ) :
    (sweepBounds g c).height = (calculateCategoryBounds g categoryPadding).height := by
  unfold sweepBounds
  by_cases hc : c = 0
  · rw [if_pos hc]
  · rw [if_neg hc, (calcBounds_shift g c).2]

/-- After the offset update against a previous stored rectangle, the
offset-adjusted top clears that rectangle's bottom by at least the fixed
spacing. -/
theorem sweepCum_le (pb : Bounds) (cum : ℚ) (bounds : Bounds) :
    pb.y + pb.height + categorySpacing ≤ bounds.y + sweepCum (some pb) cum bounds := by
  unfold sweepCum
  dsimp only
  by_cases hlt : bounds.y + cum < pb.y + pb.height + categorySpacing
  · rw [if_pos hlt]
    ring_nf
    linarith
  · rw [if_neg hlt]
    linarith

theorem sweepGo_cons (prev : Option Bounds) (cum : ℚ) (g : CatGroup) (rest : List CatGroup) :
    sweepGo prev cum (g :: rest)
      = sweepBounds g (sweepCum prev cum (calculateCategoryBounds g categoryPadding))
        :: sweepGo (some (sweepBounds g (sweepCum prev cum (calculateCategoryBounds g categoryPadding))))
            (sweepCum prev cum (calculateCategoryBounds g categoryPadding)) rest :=
  rfl

/-- Every rectangle produced after a stored rectangle `pb` starts at least
`categorySpacing` below `pb`'s bottom edge. -/
theorem sweepGo_lower :
    ∀ (cats : List CatGroup), (∀ g ∈ cats, 0 ≤ g.first.nodeHeight) →
      ∀ (pb : Bounds) (cum : ℚ), ∀ b ∈ sweepGo (some pb) cum cats,
        pb.y + pb.height + categorySpacing ≤ b.y := by
  intro cats
  induction cats with
  | nil =>
    intro _ pb cum b hb
    simp [sweepGo] at hb
  | cons g rest ih =>
    intro hh pb cum b hb
    rw [sweepGo_cons] at hb
    rcases List.mem_cons.1 hb with rfl | hb'
    · rw [sweepBounds_y]
      exact sweepCum_le pb cum _
    · have hmono := ih (fun g' hg' => hh g' (List.mem_cons_of_mem _ hg')) _ _ b hb'
      have hht := sweepBounds_height g
        (sweepCum (some pb) cum (calculateCategoryBounds g categoryPadding))
      have hy := sweepBounds_y g
        (sweepCum (some pb) cum (calculateCategoryBounds g categoryPadding))
      have h0 : 0 ≤ (calculateCategoryBounds g categoryPadding).height :=
        calcBounds_height_nonneg g (hh g (List.mem_cons_self g rest))
      have hcum := sweepCum_le pb cum (calculateCategoryBounds g categoryPadding)
      have hsp : (0 : ℚ) < categorySpacing := by norm_num [categorySpacing]
      linarith

/-- The sweep output is pairwise vertically separated, whatever the starting
offset and previous rectangle. -/
theorem sweepGo_pairwise :
    ∀ (cats : List CatGroup), (∀ g ∈ cats, 0 ≤ g.first.nodeHeight) →
      ∀ (prev : Option Bounds) (cum : ℚ),
        (sweepGo prev cum cats).Pairwise fun e l => e.y + e.height ≤ l.y := by
  intro cats
  induction cats with
  | nil =>
    intro _ prev cum
    simp [sweepGo]
  | cons g rest ih =>
    intro hh prev cum
    rw [sweepGo_cons]
    refine List.Pairwise.cons ?_ (ih (fun g' hg' => hh g' (List.mem_cons_of_mem _ hg')) _ _)
    intro b hb
    have hlow := sweepGo_lower rest (fun g' hg' => hh g' (List.mem_cons_of_mem _ hg')) _ _ b hb
    have hht := sweepBounds_height g
      (sweepCum prev cum (calculateCategoryBounds g categoryPadding))
    have hsp : (0 : ℚ) < categorySpacing := by norm_num [categorySpacing]
    linarith

theorem mem_insertByAvgY :
    ∀ (l : List CatGroup) (g x : CatGroup), x ∈ insertByAvgY g l → x = g ∨ x ∈ l
  | [], g, x, h => by
    simp [insertByAvgY] at h
    exact Or.inl h
  | h0 :: t, g, x, h => by
    unfold insertByAvgY at h
    by_cases hc : categoryAvgY g ≤ categoryAvgY h0
    · rw [if_pos hc] at h
      rcases List.mem_cons.1 h with rfl | h'
      · exact Or.inl rfl
      · exact Or.inr h'
    · rw [if_neg hc] at h
      rcases List.mem_cons.1 h with rfl | h'
      · exact Or.inr (List.mem_cons_self _ _)
      · rcases mem_insertByAvgY t g x h' with h'' | h''
        · exact Or.inl h''
        · exact Or.inr (List.mem_cons_of_mem _ h'')

theorem mem_sortByAvgY :
    ∀ (l : List CatGroup) (x : CatGroup), x ∈ sortByAvgY l → x ∈ l
  | [], x, h => by simp [sortByAvgY] at h
  | h0 :: t, x, h => by
    unfold sortByAvgY at h
    rcases mem_insertByAvgY (sortByAvgY t) h0 x h with rfl | h'
    · exact List.mem_cons_self _ _
    · exact List.mem_cons_of_mem _ (mem_sortByAvgY t x h')

/-- C1: after the aggregation sweep over one side's bucket (sorted by mean
cross-axis position, as the source does for each of the left and right
buckets), any two distinct category rectangles are vertically separated:
the rectangle later in the sweep order starts at or below the earlier
rectangle's bottom edge.  This holds for any number of categories and any
per-category node count ≥ 1 (a `CatGroup` is nonempty by construction;
only nonnegative member footprint heights are assumed), and the single
forward sweep establishes it with no backward re-check. -/
theorem c1_same_side_no_overlap (cats : List CatGroup)
    (h : ∀ g ∈ cats, 0 ≤ g.first.nodeHeight) :
    (processSide cats).Pairwise fun earlier later => earlier.y + earlier.height ≤ later.y :=
  sweepGo_pairwise (sortByAvgY cats) (fun g hg => h g (mem_sortByAvgY cats g hg)) none 0

/-- C1 witness: two single-node categories at the same position; the sweep
pushes the second rectangle 300 below the first one's bottom edge. -/
theorem c1_witness :
    (∀ g ∈ [(⟨⟨0, 0, 10, 10⟩, []⟩ : CatGroup), ⟨⟨0, 0, 10, 10⟩, []⟩],
      0 ≤ g.first.nodeHeight)
    ∧ (processSide [(⟨⟨0, 0, 10, 10⟩, []⟩ : CatGroup), ⟨⟨0, 0, 10, 10⟩, []⟩]).Pairwise
        fun earlier later => earlier.y + earlier.height ≤ later.y :=
  ⟨by
    intro g hg
    fin_cases hg <;> norm_num,
    c1_same_side_no_overlap [⟨⟨0, 0, 10, 10⟩, []⟩, ⟨⟨0, 0, 10, 10⟩, []⟩]
      (by
        intro g hg
        fin_cases hg <;> norm_num)⟩

/-- C6 witness: a 1000×800 viewport with a single node at the origin. -/
theorem c6_witness :
    (0 : ℚ) < 1000 ∧ (0 : ℚ) < 800
    ∧ (0 < (viewportFit 1000 800 (0, 0) []).treeWidth
      ∧ 0 < (viewportFit 1000 800 (0, 0) []).treeHeight
      ∧ (viewportFit 1000 800 (0, 0) []).scale
          = min 1 ((9 / 10) * min (1000 / (viewportFit 1000 800 (0, 0) []).treeWidth)
              (800 / (viewportFit 1000 800 (0, 0) []).treeHeight))
      ∧ (viewportFit 1000 800 (0, 0) []).scale ≤ 1
      ∧ 0 < (viewportFit 1000 800 (0, 0) []).scale) :=
  ⟨by norm_num, by norm_num,
    c6_viewport_fit 1000 800 (0, 0) [] (by norm_num) (by norm_num)⟩

end Yar
